import Mathlib

/-
Shallow embedding of the presence-detection and dispatch controller in
src/face-detection/pi-face.py, together with the worker body, the matcher,
the reference-data loader and the agent launcher.  Floating-point values
are idealized as exact rationals (reals only where a square root is
needed for vector normalization); wall-clock times are rationals.
-/

namespace PiFace

/- Tunables, source lines 22-32. -/

def SIM_THRESH : ℚ := 48 / 100

def POS_STREAK : Nat := 2

def NEG_STREAK : Nat := 6

def ABSENT_TIMEOUT_SEC : ℚ := 600

def EMB_DIM : Nat := 512

/- An embedding vector. -/
abbrev Vec := List ℚ

/- Dot product of two vectors, as computed by np.dot / the matrix product. -/
def dot (a b : Vec) : ℚ := (List.zipWith (fun x y => x * y) a b).sum

/- np.max over a one-dimensional array: raises ValueError on an empty
array, modelled as returning none. -/
def npMax : List ℚ → Option ℚ
  | [] => none
  | x :: xs => some (xs.foldl max x)

/- The similarity computation of source lines 220-224: if templates were
loaded, the maximum dot product against all templates, else the dot
product against the mean embedding.  Returns none exactly when np.max is
applied to an empty array (templates present but empty). -/
def score (tmpls : Option (List Vec)) (mean emb : Vec) : Option ℚ :=
  match tmpls with
  | some ts => npMax (ts.map (fun t => dot t emb))
  | none => some (dot emb mean)

/- The match decision of source line 225: sim is greater than or equal to
SIM_THRESH. -/
def isMatch (tmpls : Option (List Vec)) (mean emb : Vec) : Option Bool :=
  (score tmpls mean emb).map (fun s => decide (SIM_THRESH ≤ s))

/- A detected face: bounding box corners plus the optional normalized
embedding, as used by DetectorWorker.run (source lines 103-111). -/
structure Face where
  x1 : ℚ
  y1 : ℚ
  x2 : ℚ
  y2 : ℚ
  normed_embedding : Option Vec
deriving DecidableEq

/- Bounding-box area, source line 104. -/
def area (f : Face) : ℚ := (f.x2 - f.x1) * (f.y2 - f.y1)

/- max(faces, key=area) if faces else None: Python max keeps the first
element and replaces it only on a strictly larger key, so the first face
of maximal area is returned. -/
def pickLargest : List Face → Option Face
  | [] => none
  | f :: fs => some (fs.foldl (fun best g => if area best < area g then g else best) f)

/- One iteration body of DetectorWorker.run after a frame was dequeued
(source lines 103-111).  The extraction call self.app.get is not wrapped
in any try/except, so a raised exception propagates out of the body;
this is modelled by the Except layer.  The inner Option is the output
action: none means the output slot was full and the result was dropped;
some p means p was published, where p = none is the absence marker and
p = some emb is an embedding. -/
def detectStep (ext : Except String (List Face)) (outFull : Bool) :
    Except String (Option (Option Vec)) :=
  match ext with
  | Except.error e => Except.error e
  | Except.ok faces =>
    match pickLargest faces with
    | none => Except.ok (if outFull then none else some none)
    | some f =>
      match f.normed_embedding with
      | none => Except.ok (if outFull then none else some none)
      | some emb => Except.ok (if outFull then none else some (some emb))

/- The launched agent process; running models poll() returning None. -/
structure Proc where
  pid : Nat
  running : Bool
deriving DecidableEq

inductive LaunchRes
  | disabled
  | alreadyRunning
  | launched (p : Proc)
  | failed (e : String)
deriving DecidableEq

/- The Popen call of source lines 139-143: spawn is its outcome, either a
fresh process or a raised exception, which launch_agent catches. -/
def launchNew (spawn : Except String Proc) (cur : Option Proc) :
    Option Proc × LaunchRes :=
  match spawn with
  | Except.ok p => (some p, LaunchRes.launched p)
  | Except.error e => (cur, LaunchRes.failed e)

/- launch_agent, source lines 114-146: returns the new value of the
global AGENT_PROCESS handle together with what happened.  When the held
process is still running (poll() is None) the call returns without
spawning anything. -/
def launch_agent (enabled : Bool) (spawn : Except String Proc)
    (cur : Option Proc) : Option Proc × LaunchRes :=
  if enabled = false then (cur, LaunchRes.disabled)
  else
    match cur with
    | some p =>
      if p.running then (cur, LaunchRes.alreadyRunning)
      else launchNew spawn cur
    | none => launchNew spawn cur

/- A value loaded by np.load: a one-dimensional array, or a
two-dimensional array with its second shape dimension and its rows. -/
inductive NpArr
  | one (v : List ℚ)
  | two (cols : Nat) (rows : List (List ℚ))

/- Squared Euclidean norm of a rational vector. -/
def normSq (v : List ℚ) : ℚ := (v.map (fun x => x * x)).sum

/- Squared Euclidean norm of a real vector.  A vector has unit Euclidean
length exactly when this equals 1. -/
def normSqR (v : List ℝ) : ℝ := (v.map (fun x => x * x)).sum

/- The clamp 1e-9 of source line 161. -/
noncomputable def tinyEps : ℝ := 1 / 1000000000

/- np.linalg.norm of one row. -/
noncomputable def rowNorm (row : List ℚ) : ℝ :=
  Real.sqrt ((normSq row : ℚ) : ℝ)

/- Source lines 161-162: divide a row by the larger of its norm and 1e-9. -/
noncomputable def normalizeRow (row : List ℚ) : List ℝ :=
  row.map (fun x => (x : ℝ) / max (rowNorm row) tinyEps)

noncomputable def normalizeRows (rows : List (List ℚ)) : List (List ℝ) :=
  rows.map normalizeRow

/- load_embeddings, source lines 148-167.  Arguments are the contents of
the two .npy files (none when the file does not exist).  The result is
none when the process exits fatally (sys.exit), else the mean embedding
as loaded and the optional normalized template rows.  A templates array
that is not two-dimensional with second dimension 512 is silently
discarded (tmpls = None), never fatal. -/
noncomputable def load_embeddings (meanFile : Option NpArr)
    (tmplsFile : Option NpArr) : Option (Vec × Option (List (List ℝ))) :=
  match meanFile with
  | none => none
  | some (NpArr.two _ _) => none
  | some (NpArr.one v) =>
    if v.length = EMB_DIM then
      match tmplsFile with
      | none => some (v, none)
      | some (NpArr.one _) => some (v, none)
      | some (NpArr.two cols rows) =>
        if cols = EMB_DIM then some (v, some (normalizeRows rows))
        else some (v, none)
    else none

/- The per-cycle worker result as seen by the main loop at source lines
214-215: noResult when the output queue was empty, absent when the
worker published the absence marker, found sim when it published an
embedding whose similarity (computed at lines 220-224) is sim. -/
inductive Res
  | noResult
  | absent
  | found (sim : ℚ)
deriving DecidableEq

/- One cycle of input to the main loop: the worker result and the value
of time.time() during the cycle. -/
structure CycleIn where
  res : Res
  now : ℚ
deriving DecidableEq

/- The mutable state of the main loop, source lines 188-195. -/
structure MState where
  present : Bool
  posHits : Nat
  negHits : Nat
  lastAbsent : ℚ
  dispatchReady : Bool
deriving DecidableEq

/- Initial state, source lines 188-195: absent, zero counters, lastAbsent
at process start, dispatch armed. -/
def initState (t0 : ℚ) : MState := ⟨false, 0, 0, t0, true⟩

/- Streak-counter update, source lines 216-230, given the worker result
with its similarity already computed.  Returns the new (posHits,
negHits). -/
def updateHits (r : Res) (pos neg : Nat) : Nat × Nat :=
  match r with
  | Res.noResult => (pos, neg)
  | Res.absent => (0, min NEG_STREAK (neg + 1))
  | Res.found sim =>
    if SIM_THRESH ≤ sim then (min POS_STREAK (pos + 1), 0)
    else (0, min NEG_STREAK (neg + 1))

/- Time-based re-arming, source lines 249-251, applied at the end of
every cycle to the post-transition state. -/
def rearm (s : MState) (now : ℚ) : MState :=
  if s.present = false ∧ s.dispatchReady = false ∧
      ABSENT_TIMEOUT_SEC ≤ now - s.lastAbsent then
    ⟨s.present, s.posHits, s.negHits, s.lastAbsent, true⟩
  else s

/- The state-transition block, source lines 234-246, applied to the
already-updated counters.  The Bool is true exactly when launch_agent
was invoked: an Absent-to-Present transition while dispatch_ready, which
also clears dispatch_ready (line 241).  A Present-to-Absent transition
records last_absent_time = now (line 246). -/
def transitions (s : MState) (pos neg : Nat) (now : ℚ) : MState × Bool :=
  if s.present = false ∧ POS_STREAK ≤ pos then
    (⟨true, pos, neg, s.lastAbsent, false⟩, s.dispatchReady)
  else if s.present = true ∧ NEG_STREAK ≤ neg then
    (⟨false, pos, neg, now, s.dispatchReady⟩, false)
  else
    (⟨s.present, pos, neg, s.lastAbsent, s.dispatchReady⟩, false)

/- One full cycle of the main loop, source lines 213-251: counter update,
state transitions, then the time-based re-arm check. -/
def cycleStep (s : MState) (c : CycleIn) : MState × Bool :=
  let pn := updateHits c.res s.posHits s.negHits
  let tr := transitions s pn.1 pn.2 c.now
  (rearm tr.1 c.now, tr.2)

/- Running the loop over a list of cycle inputs. -/
def runFrom (s : MState) : List CycleIn → MState
  | [] => s
  | c :: cs => runFrom (cycleStep s c).1 cs

/- All states visited, the starting state included. -/
def statesFrom (s : MState) : List CycleIn → List MState
  | [] => [s]
  | c :: cs => s :: statesFrom (cycleStep s c).1 cs

/- The Match/Miss outcome stream of a cycle-input list: cycles without a
worker result contribute nothing, an absence marker contributes a Miss
(false), an embedding contributes its match decision. -/
def outcomeOf (r : Res) : Option Bool :=
  match r with
  | Res.noResult => none
  | Res.absent => some false
  | Res.found sim => some (decide (SIM_THRESH ≤ sim))

def outcomes (cs : List CycleIn) : List Bool :=
  cs.filterMap (fun c => outcomeOf c.res)

/- Number of trailing outcomes equal to b. -/
def trailing (b : Bool) (l : List Bool) : Nat :=
  (l.reverse.takeWhile (fun x => x == b)).length

/- Counter invariant of the main loop: counters within their caps and
never both positive. -/
def CounterInv (s : MState) : Prop :=
  0 ≤ s.posHits ∧ s.posHits ≤ POS_STREAK ∧
  0 ≤ s.negHits ∧ s.negHits ≤ NEG_STREAK ∧
  (s.posHits = 0 ∨ s.negHits = 0)

instance : DecidablePred CounterInv := fun s => by
  unfold CounterInv; infer_instance

/- Pending-transition invariant: a reachable state never still satisfies
the transition guard of its own presence value. -/
def NoPending (s : MState) : Prop :=
  (s.present = false → s.posHits < POS_STREAK) ∧
  (s.present = true → s.negHits < NEG_STREAK)

instance : DecidablePred NoPending := fun s => by
  unfold NoPending; infer_instance

/- All states in a list are absent. -/
def allAbsent (l : List MState) : Prop := ∀ st ∈ l, st.present = false

/- Basic field lemmas for the re-arm step. -/

theorem rearm_present (s : MState) (t : ℚ) : (rearm s t).present = s.present := by
  unfold rearm; split <;> rfl

theorem rearm_posHits (s : MState) (t : ℚ) : (rearm s t).posHits = s.posHits := by
  unfold rearm; split <;> rfl

theorem rearm_negHits (s : MState) (t : ℚ) : (rearm s t).negHits = s.negHits := by
  unfold rearm; split <;> rfl

theorem rearm_lastAbsent (s : MState) (t : ℚ) :
    (rearm s t).lastAbsent = s.lastAbsent := by
  unfold rearm; split <;> rfl

theorem rearm_ready_iff (s : MState) (t : ℚ) :
    (rearm s t).dispatchReady = true ↔
      s.dispatchReady = true ∨
        (s.present = false ∧ ABSENT_TIMEOUT_SEC ≤ t - s.lastAbsent) := by
  unfold rearm; split <;> rename_i h
  · simp only [true_iff]
    exact Or.inr ⟨h.1, h.2.2⟩
  · constructor
    · exact fun hr => Or.inl hr
    · intro hr
      rcases hr with hr | hr
      · exact hr
      · by_contra hb
        simp only [Bool.not_eq_true] at hb
        exact h ⟨hr.1, hb, hr.2⟩

/- Basic field lemmas for the transition block. -/

theorem transitions_posHits (s : MState) (p n : Nat) (t : ℚ) :
    (transitions s p n t).1.posHits = p := by
  unfold transitions; split_ifs <;> rfl

theorem transitions_negHits (s : MState) (p n : Nat) (t : ℚ) :
    (transitions s p n t).1.negHits = n := by
  unfold transitions; split_ifs <;> rfl

theorem transitions_present_of_absent (s : MState) (p n : Nat) (t : ℚ)
    (h : s.present = false) :
    (transitions s p n t).1.present = true ↔ POS_STREAK ≤ p := by
  unfold transitions; split_ifs with h1 h2
  · simp only [true_iff]; exact h1.2
  · simp [h] at h2
  · simp only [h, Bool.false_eq_true, false_iff]
    intro hp
    exact h1 ⟨h, hp⟩

theorem transitions_absent_of_present (s : MState) (p n : Nat) (t : ℚ)
    (h : s.present = true) :
    (transitions s p n t).1.present = false ↔ NEG_STREAK ≤ n := by
  unfold transitions; split_ifs with h1 h2
  · simp [h] at h1
  · simp only [true_iff]; exact h2.2
  · simp only [h, Bool.true_eq_false, false_iff]
    intro hn
    exact h2 ⟨h, hn⟩

theorem transitions_fired_iff (s : MState) (p n : Nat) (t : ℚ) :
    (transitions s p n t).2 = true ↔
      s.present = false ∧ POS_STREAK ≤ p ∧ s.dispatchReady = true := by
  unfold transitions; split_ifs with h1 h2
  · constructor
    · exact fun hr => ⟨h1.1, h1.2, hr⟩
    · exact fun hr => hr.2.2
  · simp only [Bool.false_eq_true, false_iff]
    intro hr
    exact h1 ⟨hr.1, hr.2.1⟩
  · simp only [Bool.false_eq_true, false_iff]
    intro hr
    exact h1 ⟨hr.1, hr.2.1⟩

theorem transitions_fired_ready (s : MState) (p n : Nat) (t : ℚ)
    (h : (transitions s p n t).2 = true) :
    (transitions s p n t).1.dispatchReady = false ∧
      (transitions s p n t).1.present = true := by
  unfold transitions at h ⊢
  split_ifs at h ⊢
  simp_all

/- cycleStep unfolded into its three blocks. -/
theorem cycleStep_eq (s : MState) (c : CycleIn) :
    cycleStep s c =
      (rearm (transitions s (updateHits c.res s.posHits s.negHits).1
        (updateHits c.res s.posHits s.negHits).2 c.now).1 c.now,
       (transitions s (updateHits c.res s.posHits s.negHits).1
        (updateHits c.res s.posHits s.negHits).2 c.now).2) := rfl

theorem cycleStep_posHits (s : MState) (c : CycleIn) :
    (cycleStep s c).1.posHits = (updateHits c.res s.posHits s.negHits).1 := by
  rw [cycleStep_eq, rearm_posHits, transitions_posHits]

theorem cycleStep_negHits (s : MState) (c : CycleIn) :
    (cycleStep s c).1.negHits = (updateHits c.res s.posHits s.negHits).2 := by
  rw [cycleStep_eq, rearm_negHits, transitions_negHits]

theorem cycleStep_present (s : MState) (c : CycleIn) :
    (cycleStep s c).1.present =
      (transitions s (updateHits c.res s.posHits s.negHits).1
        (updateHits c.res s.posHits s.negHits).2 c.now).1.present := by
  rw [cycleStep_eq, rearm_present]

theorem runFrom_append_one (s : MState) (cs : List CycleIn) (c : CycleIn) :
    runFrom s (cs ++ [c]) = (cycleStep (runFrom s cs) c).1 := by
  induction cs generalizing s with
  | nil => rfl
  | cons d ds ih => exact ih (cycleStep s d).1

theorem rearm_of_present (s : MState) (t : ℚ) (h : s.present = true) :
    rearm s t = s := by
  unfold rearm; split_ifs with hc
  · rw [h] at hc; exact absurd hc.1 (by simp)
  · rfl

/- Folding max over a list stays in the list (or at the seed) and bounds
every element. -/

theorem foldl_max_mem (xs : List ℚ) (a : ℚ) :
    xs.foldl max a = a ∨ xs.foldl max a ∈ xs := by
  induction xs generalizing a with
  | nil => exact Or.inl rfl
  | cons x xs ih =>
    rcases ih (max a x) with h | h
    · rcases le_total a x with hax | hxa
      · right
        rw [List.foldl_cons, h, max_eq_right hax]
        exact List.mem_cons_self _ _
      · left
        rw [List.foldl_cons, h, max_eq_left hxa]
    · right
      exact List.mem_cons_of_mem _ h

theorem foldl_max_le (xs : List ℚ) (a : ℚ) :
    a ≤ xs.foldl max a ∧ ∀ y ∈ xs, y ≤ xs.foldl max a := by
  induction xs generalizing a with
  | nil =>
    refine ⟨le_refl a, ?_⟩
    intro y hy
    exact absurd hy (List.not_mem_nil y)
  | cons x xs ih =>
    obtain ⟨h1, h2⟩ := ih (max a x)
    refine ⟨le_trans (le_max_left a x) h1, ?_⟩
    intro y hy
    rcases List.mem_cons.mp hy with rfl | hy
    · exact le_trans (le_max_right a y) h1
    · exact h2 y hy

theorem npMax_spec (l : List ℚ) (m : ℚ) (h : npMax l = some m) :
    m ∈ l ∧ ∀ x ∈ l, x ≤ m := by
  cases l with
  | nil => exact absurd h (by simp [npMax])
  | cons x xs =>
    have hm : m = xs.foldl max x := by
      have := h
      unfold npMax at this
      exact (Option.some.injEq _ _ ▸ this.symm : _)
    subst hm
    obtain ⟨h1, h2⟩ := foldl_max_le xs x
    constructor
    · rcases foldl_max_mem xs x with he | he
      · rw [he]; exact List.mem_cons_self _ _
      · exact List.mem_cons_of_mem _ he
    · intro y hy
      rcases List.mem_cons.mp hy with rfl | hy
      · exact h1
      · exact h2 y hy

/-- C6 counterexample: with a present-but-empty template set, the matcher
does not return the dot product with the mean embedding; np.max of an
empty array raises instead (score is none).  The claim, which requires
the mean-embedding dot product for every reference set whose template
set is empty, fails at this reference set. -/
theorem matcher_empty_templates_cx :
    score (some ([] : List Vec)) [1] [1] ≠ some (dot [1] [1]) := by decide

/-- C6 (amended): with no template set the score is the dot product with
the mean embedding; with a non-empty template set the score is the
maximum over all templates of the dot product with that template; with a
present-but-empty template set np.max raises and no score is produced;
and whenever a score is produced, the match decision is exactly
(score at least SIM_THRESH), with no other state involved. -/
theorem matcher_score_spec (mean emb : Vec) :
    (score none mean emb = some (dot emb mean)) ∧
    (∀ ts : List Vec, ts ≠ [] →
      ∃ m, score (some ts) mean emb = some m ∧
        m ∈ ts.map (fun t => dot t emb) ∧ ∀ t ∈ ts, dot t emb ≤ m) ∧
    (score (some ([] : List Vec)) mean emb = none) ∧
    (∀ tmpls s, score tmpls mean emb = some s →
      isMatch tmpls mean emb = some (decide (SIM_THRESH ≤ s))) := by
  refine ⟨rfl, ?_, rfl, ?_⟩
  · intro ts hts
    cases ts with
    | nil => exact absurd rfl hts
    | cons t ts =>
      have h : npMax ((t :: ts).map (fun u => dot u emb)) =
          some ((ts.map (fun u => dot u emb)).foldl max (dot t emb)) := rfl
      refine ⟨_, h, ?_, ?_⟩
      · exact (npMax_spec _ _ h).1
      · intro u hu
        exact (npMax_spec _ _ h).2 (dot u emb) (List.mem_map_of_mem _ hu)
  · intro tmpls s h
    unfold isMatch
    rw [h]
    rfl

/-- C6 witness: a concrete two-template reference set where the maximal
dot product is 2, and the induced match decision. -/
theorem matcher_score_spec_witness :
    (∃ m, score (some [[1], [2]]) [3] [1] = some m ∧
      m ∈ ([[1], [2]] : List Vec).map (fun t => dot t [1]) ∧
      ∀ t ∈ ([[1], [2]] : List Vec), dot t [1] ≤ m) ∧
    isMatch (some [[1], [2]]) [3] [1] = some (decide (SIM_THRESH ≤ 2)) :=
  ⟨(matcher_score_spec [3] [1]).2.1 [[1], [2]] (by simp),
   (matcher_score_spec [3] [1]).2.2.2 (some [[1], [2]]) 2
     (by norm_num [score, npMax, dot])⟩

/-- C3 counterexample: a raised extraction error is not treated as
absence: the worker body propagates the error and does not publish the
absence marker, contradicting the claim that an extraction failure is
handled identically to no face found. -/
theorem detect_error_propagates_cx :
    detectStep (Except.error "boom") false = Except.error "boom" ∧
    detectStep (Except.error "boom") false ≠ Except.ok (some none) := by
  refine ⟨rfl, ?_⟩
  simp [detectStep]

/-- C3 (amended): an extraction call that returns normally never makes
the worker body fail, a no-face result or a face without embedding is
published as the absence marker, but a raised extraction error is not
caught: it propagates out of the worker body. -/
theorem detect_no_face_nonfatal :
    (∀ faces outFull, ∃ r, detectStep (Except.ok faces) outFull = Except.ok r) ∧
    (detectStep (Except.ok []) false = Except.ok (some none)) ∧
    (∀ faces f, pickLargest faces = some f → f.normed_embedding = none →
      detectStep (Except.ok faces) false = Except.ok (some none)) ∧
    (∀ e outFull, detectStep (Except.error e) outFull = Except.error e) := by
  refine ⟨?_, rfl, ?_, ?_⟩
  · intro faces outFull
    cases h : pickLargest faces with
    | none =>
      exact ⟨if outFull then none else some none, by simp [detectStep, h]⟩
    | some f =>
      cases he : f.normed_embedding with
      | none =>
        exact ⟨if outFull then none else some none, by simp [detectStep, h, he]⟩
      | some emb =>
        exact ⟨if outFull then none else some (some emb),
          by simp [detectStep, h, he]⟩
  · intro faces f h he
    simp [detectStep, h, he]
  · intro e outFull
    rfl

/-- C3 witness: a single face without embedding is published as the
absence marker, and a concrete error input propagates. -/
theorem detect_no_face_nonfatal_witness :
    detectStep (Except.ok [⟨0, 0, 1, 1, none⟩]) false = Except.ok (some none) ∧
    detectStep (Except.error "e") true = Except.error "e" :=
  ⟨detect_no_face_nonfatal.2.2.1 [⟨0, 0, 1, 1, none⟩] ⟨0, 0, 1, 1, none⟩
      rfl rfl,
   detect_no_face_nonfatal.2.2.2 "e" true⟩

/- Folding the larger-area choice stays in the list (or at the seed) and
dominates every area. -/

theorem foldl_pick_mem (fs : List Face) (a : Face) :
    fs.foldl (fun best g => if area best < area g then g else best) a = a ∨
      fs.foldl (fun best g => if area best < area g then g else best) a ∈ fs := by
  induction fs generalizing a with
  | nil => exact Or.inl rfl
  | cons g fs ih =>
    rw [List.foldl_cons]
    by_cases hg : area a < area g
    · rcases ih (if area a < area g then g else a) with h | h
      · right
        rw [h]
        simp only [hg, if_pos]
        exact List.mem_cons_self _ _
      · right
        exact List.mem_cons_of_mem _ h
    · rcases ih (if area a < area g then g else a) with h | h
      · left
        rw [h]
        simp only [hg, if_neg, if_false]
      · right
        exact List.mem_cons_of_mem _ h

theorem foldl_pick_le (fs : List Face) (a : Face) :
    area a ≤ area (fs.foldl (fun best g => if area best < area g then g else best) a) ∧
      ∀ g ∈ fs,
        area g ≤ area (fs.foldl (fun best g => if area best < area g then g else best) a) := by
  induction fs generalizing a with
  | nil =>
    refine ⟨le_refl _, ?_⟩
    intro g hg
    exact absurd hg (List.not_mem_nil g)
  | cons g fs ih =>
    obtain ⟨h1, h2⟩ := ih (if area a < area g then g else a)
    have ha : area a ≤ area (if area a < area g then g else a) := by
      split_ifs with hc
      · exact le_of_lt hc
      · exact le_refl _
    have hgle : area g ≤ area (if area a < area g then g else a) := by
      split_ifs with hc
      · exact le_refl _
      · exact le_of_not_lt hc
    rw [List.foldl_cons]
    refine ⟨le_trans ha h1, ?_⟩
    intro u hu
    rcases List.mem_cons.mp hu with rfl | hu
    · exact le_trans hgle h1
    · exact h2 u hu

/-- C8: the face chosen by the worker is a detected face of maximal
bounding-box area, and when it carries an embedding, that embedding is
what gets published. -/
theorem largest_face_selected (faces : List Face) (f : Face)
    (h : pickLargest faces = some f) :
    f ∈ faces ∧ (∀ g ∈ faces, area g ≤ area f) ∧
      ∀ emb, f.normed_embedding = some emb →
        detectStep (Except.ok faces) false = Except.ok (some (some emb)) := by
  cases faces with
  | nil => exact absurd h (by simp [pickLargest])
  | cons f0 fs =>
    have hf : f = fs.foldl (fun best g => if area best < area g then g else best) f0 := by
      have := h
      unfold pickLargest at this
      exact (Option.some.injEq _ _ ▸ this.symm : _)
    obtain ⟨h1, h2⟩ := foldl_pick_le fs f0
    refine ⟨?_, ?_, ?_⟩
    · rcases foldl_pick_mem fs f0 with he | he
      · rw [hf, he]; exact List.mem_cons_self _ _
      · rw [hf]; exact List.mem_cons_of_mem _ he
    · intro g hg
      rcases List.mem_cons.mp hg with rfl | hg
      · rw [hf]; exact h1
      · rw [hf]; exact h2 g hg
    · intro emb he
      simp [detectStep, h, he]

/-- C8 witness: of two concrete faces the larger one, which carries an
embedding, is selected and its embedding published. -/
theorem largest_face_selected_witness :
    (⟨0, 0, 2, 2, some [1]⟩ : Face) ∈
        [(⟨0, 0, 1, 1, none⟩ : Face), ⟨0, 0, 2, 2, some [1]⟩] ∧
    (∀ g ∈ [(⟨0, 0, 1, 1, none⟩ : Face), ⟨0, 0, 2, 2, some [1]⟩],
      area g ≤ area ⟨0, 0, 2, 2, some [1]⟩) ∧
    detectStep (Except.ok [⟨0, 0, 1, 1, none⟩, ⟨0, 0, 2, 2, some [1]⟩]) false
      = Except.ok (some (some [1])) := by
  obtain ⟨w1, w2, w3⟩ :=
    largest_face_selected [⟨0, 0, 1, 1, none⟩, ⟨0, 0, 2, 2, some [1]⟩]
      ⟨0, 0, 2, 2, some [1]⟩ (by norm_num [pickLargest, area])
  exact ⟨w1, w2, w3 [1] rfl⟩

/-- C10: invoking the dispatch action while the previously launched
process is still running starts no new process (the handle is unchanged),
yet the arbiter still disarms after the invocation. -/
theorem launch_noop_when_running (p : Proc) (spawn : Except String Proc)
    (h : p.running = true) (s : MState) (c : CycleIn)
    (h1 : s.present = false) (h2 : s.dispatchReady = true)
    (h3 : (cycleStep s c).1.present = true) :
    launch_agent true spawn (some p) = (some p, LaunchRes.alreadyRunning) ∧
    (cycleStep s c).2 = true ∧ (cycleStep s c).1.dispatchReady = false := by
  have hl : launch_agent true spawn (some p) = (some p, LaunchRes.alreadyRunning) := by
    unfold launch_agent
    simp [h]
  have hpos : POS_STREAK ≤ (updateHits c.res s.posHits s.negHits).1 := by
    rw [cycleStep_present] at h3
    exact (transitions_present_of_absent s _ _ c.now h1).mp h3
  have hfired : (transitions s (updateHits c.res s.posHits s.negHits).1
      (updateHits c.res s.posHits s.negHits).2 c.now).2 = true :=
    (transitions_fired_iff s _ _ c.now).mpr ⟨h1, hpos, h2⟩
  obtain ⟨hready, hpres⟩ := transitions_fired_ready s _ _ c.now hfired
  refine ⟨hl, ?_, ?_⟩
  · rw [cycleStep_eq]
    exact hfired
  · rw [cycleStep_eq]
    simp only
    rw [rearm_of_present _ _ hpres]
    exact hready

/- Facts about the squared norm and the load-time normalization. -/

theorem normSq_nonneg (v : List ℚ) : 0 ≤ normSq v := by
  apply List.sum_nonneg
  intro x hx
  obtain ⟨y, _, rfl⟩ := List.mem_map.mp hx
  exact mul_self_nonneg y

theorem normSqR_map_div (row : List ℚ) (d : ℝ) :
    normSqR (row.map (fun x => (x : ℝ) / d)) =
      ((normSq row : ℚ) : ℝ) / (d * d) := by
  induction row with
  | nil => simp [normSqR, normSq]
  | cons x xs ih =>
    have hx : ((x : ℝ) / d) * ((x : ℝ) / d) = ((x : ℝ) * x) / (d * d) := by
      rw [div_mul_div_comm]
    have h0 : normSq (x :: xs) = x * x + normSq xs := by simp [normSq]
    have hcast : ((normSq (x :: xs) : ℚ) : ℝ) =
        (x : ℝ) * x + ((normSq xs : ℚ) : ℝ) := by
      rw [h0]
      push_cast
      ring
    calc normSqR ((x :: xs).map (fun y => (y : ℝ) / d))
        = ((x : ℝ) / d) * ((x : ℝ) / d) +
            normSqR (xs.map (fun y => (y : ℝ) / d)) := by
          simp [normSqR]
      _ = ((x : ℝ) * x) / (d * d) + ((normSq xs : ℚ) : ℝ) / (d * d) := by
          rw [hx, ih]
      _ = ((x : ℝ) * x + ((normSq xs : ℚ) : ℝ)) / (d * d) := div_add_div_same _ _ _
      _ = ((normSq (x :: xs) : ℚ) : ℝ) / (d * d) := by rw [hcast]

theorem rowNorm_mul_self (row : List ℚ) :
    rowNorm row * rowNorm row = ((normSq row : ℚ) : ℝ) := by
  unfold rowNorm
  exact Real.mul_self_sqrt (by exact_mod_cast normSq_nonneg row)

theorem tinyEps_pos : 0 < tinyEps := by norm_num [tinyEps]

/- Shape of a successful load for a well-formed mean file. -/
theorem load_ok_none (v : Vec) (hv : v.length = EMB_DIM) :
    load_embeddings (some (NpArr.one v)) none = some (v, none) := by
  simp only [load_embeddings]
  rw [if_pos hv]

theorem load_ok_one (v : Vec) (hv : v.length = EMB_DIM) (w : List ℚ) :
    load_embeddings (some (NpArr.one v)) (some (NpArr.one w)) = some (v, none) := by
  simp only [load_embeddings]
  rw [if_pos hv]

theorem load_ok_two_bad (v : Vec) (hv : v.length = EMB_DIM) (cols : Nat)
    (rows : List (List ℚ)) (hc : cols ≠ EMB_DIM) :
    load_embeddings (some (NpArr.one v)) (some (NpArr.two cols rows))
      = some (v, none) := by
  simp only [load_embeddings]
  rw [if_pos hv]
  show (if cols = EMB_DIM then some (v, some (normalizeRows rows))
    else some (v, none)) = some (v, none)
  rw [if_neg hc]

theorem load_ok_two_good (v : Vec) (hv : v.length = EMB_DIM)
    (rows : List (List ℚ)) :
    load_embeddings (some (NpArr.one v)) (some (NpArr.two EMB_DIM rows))
      = some (v, some (normalizeRows rows)) := by
  simp only [load_embeddings]
  rw [if_pos hv]
  show (if EMB_DIM = EMB_DIM then some (v, some (normalizeRows rows))
    else some (v, none)) = some (v, some (normalizeRows rows))
  rw [if_pos rfl]

theorem replicate512_length : (List.replicate 512 (1 : ℚ)).length = EMB_DIM := by
  rw [List.length_replicate]
  rfl

/-- C4 counterexample: with a well-formed mean embedding and a templates
array whose rows have length 5 (second shape dimension 5, not 512),
loading does not fail: it returns a reference set with the templates
silently discarded, contradicting the claim that any template length
other than 512 is fatal. -/
theorem load_bad_templates_not_fatal_cx :
    load_embeddings (some (NpArr.one (List.replicate 512 1)))
        (some (NpArr.two 5 [List.replicate 5 1]))
      = some (List.replicate 512 1, none) ∧
    load_embeddings (some (NpArr.one (List.replicate 512 1)))
        (some (NpArr.two 5 [List.replicate 5 1]))
      ≠ none := by
  have h := load_ok_two_bad (List.replicate 512 1) replicate512_length 5
    [List.replicate 5 1] (by decide)
  rw [h]
  exact ⟨rfl, Option.some_ne_none _⟩

/-- C4 (amended): loading is fatal exactly when the mean-embedding file
is missing or its array does not have shape (512,); a templates array
that is not two-dimensional with second dimension 512 is silently
discarded (the load succeeds with no templates), and a well-shaped
templates array is normalized and kept. -/
theorem load_fatal_only_for_mean (t : Option NpArr) :
    (load_embeddings none t = none) ∧
    (∀ cols rows, load_embeddings (some (NpArr.two cols rows)) t = none) ∧
    (∀ v : Vec, v.length ≠ EMB_DIM →
      load_embeddings (some (NpArr.one v)) t = none) ∧
    (∀ v : Vec, v.length = EMB_DIM →
      load_embeddings (some (NpArr.one v)) none = some (v, none)) ∧
    (∀ (v : Vec) (w : List ℚ), v.length = EMB_DIM →
      load_embeddings (some (NpArr.one v)) (some (NpArr.one w)) = some (v, none)) ∧
    (∀ (v : Vec) cols rows, v.length = EMB_DIM → cols ≠ EMB_DIM →
      load_embeddings (some (NpArr.one v)) (some (NpArr.two cols rows))
        = some (v, none)) ∧
    (∀ (v : Vec) rows, v.length = EMB_DIM →
      load_embeddings (some (NpArr.one v)) (some (NpArr.two EMB_DIM rows))
        = some (v, some (normalizeRows rows))) := by
  refine ⟨rfl, fun cols rows => rfl, ?_, ?_, ?_, ?_, ?_⟩
  · intro v hv
    simp only [load_embeddings]
    rw [if_neg hv]
  · intro v hv
    exact load_ok_none v hv
  · intro v w hv
    exact load_ok_one v hv w
  · intro v cols rows hv hc
    exact load_ok_two_bad v hv cols rows hc
  · intro v rows hv
    exact load_ok_two_good v hv rows

/-- C4 witness: a mean of wrong length is fatal, a good mean with no
templates file succeeds, and a good mean with a well-shaped templates
file yields normalized templates. -/
theorem load_fatal_only_for_mean_witness :
    load_embeddings (some (NpArr.one [1])) none = none ∧
    load_embeddings (some (NpArr.one (List.replicate 512 1))) none
      = some (List.replicate 512 1, none) ∧
    load_embeddings (some (NpArr.one (List.replicate 512 1)))
        (some (NpArr.two EMB_DIM []))
      = some (List.replicate 512 1, some (normalizeRows [])) :=
  ⟨(load_fatal_only_for_mean none).2.2.1 [1] (by decide),
   (load_fatal_only_for_mean none).2.2.2.1 (List.replicate 512 1)
     replicate512_length,
   (load_fatal_only_for_mean (some (NpArr.two EMB_DIM []))).2.2.2.2.2.2
     (List.replicate 512 1) [] replicate512_length⟩

/-- C5 counterexample: the loader never normalizes the mean embedding.  A
mean vector of squared norm 4 (unit Euclidean length would mean squared
norm 1) loads successfully and is returned unchanged, so not every
vector of a successfully loaded reference set has unit length. -/
theorem load_mean_not_normalized_cx :
    load_embeddings (some (NpArr.one (2 :: List.replicate 511 0))) none
      = some (2 :: List.replicate 511 0, none) ∧
    normSq (2 :: List.replicate 511 0) = 4 := by
  constructor
  · exact load_ok_none (2 :: List.replicate 511 0)
      (by rw [List.length_cons, List.length_replicate]; rfl)
  · norm_num [normSq, List.map_replicate, List.sum_replicate]

/-- C5 (amended): at load time only the templates are normalized: the
mean embedding is returned exactly as loaded, while every template row
whose Euclidean norm is at least the 1e-9 clamp has unit length (squared
norm 1) in the loaded reference set. -/
theorem load_normalizes_templates_only (v : Vec) (hv : v.length = EMB_DIM)
    (rows : List (List ℚ)) :
    load_embeddings (some (NpArr.one v)) (some (NpArr.two EMB_DIM rows))
      = some (v, some (normalizeRows rows)) ∧
    ∀ row ∈ rows, tinyEps ≤ rowNorm row → normSqR (normalizeRow row) = 1 := by
  constructor
  · exact load_ok_two_good v hv rows
  · intro row _ h
    have hd : max (rowNorm row) tinyEps = rowNorm row := max_eq_left h
    unfold normalizeRow
    rw [hd, normSqR_map_div, rowNorm_mul_self]
    apply div_self
    have h1 : 0 < rowNorm row := lt_of_lt_of_le tinyEps_pos h
    unfold rowNorm at h1
    exact ne_of_gt (Real.sqrt_pos.mp h1)

/-- C5 witness: a concrete template row of norm 1 is normalized to unit
squared norm, and the mean passes through unchanged. -/
theorem load_normalizes_templates_only_witness :
    load_embeddings (some (NpArr.one (List.replicate 512 1)))
        (some (NpArr.two EMB_DIM [1 :: List.replicate 511 0]))
      = some (List.replicate 512 1,
          some (normalizeRows [1 :: List.replicate 511 0])) ∧
    normSqR (normalizeRow (1 :: List.replicate 511 0)) = 1 := by
  obtain ⟨w1, w2⟩ := load_normalizes_templates_only (List.replicate 512 1)
    replicate512_length [1 :: List.replicate 511 0]
  refine ⟨w1, w2 _ (List.mem_singleton.mpr rfl) ?_⟩
  have hn : normSq (1 :: List.replicate 511 0) = 1 := by
    norm_num [normSq, List.map_replicate, List.sum_replicate]
  have hr : rowNorm (1 :: List.replicate 511 0) = 1 := by
    unfold rowNorm
    rw [hn]
    norm_num [Real.sqrt_one]
  rw [hr]
  norm_num [tinyEps]

/-- C10 witness: a concrete still-running process and a concrete cycle in
which the presence transition fires. -/
theorem launch_noop_when_running_witness :
    launch_agent true (Except.ok ⟨8, true⟩) (some ⟨7, true⟩)
        = (some ⟨7, true⟩, LaunchRes.alreadyRunning) ∧
    (cycleStep ⟨false, 1, 0, 0, true⟩ ⟨Res.found 1, 5⟩).2 = true ∧
    (cycleStep ⟨false, 1, 0, 0, true⟩ ⟨Res.found 1, 5⟩).1.dispatchReady = false :=
  launch_noop_when_running ⟨7, true⟩ (Except.ok ⟨8, true⟩) rfl
    ⟨false, 1, 0, 0, true⟩ ⟨Res.found 1, 5⟩ rfl rfl
    (by norm_num [cycleStep, transitions, rearm, updateHits, SIM_THRESH,
      POS_STREAK, NEG_STREAK, ABSENT_TIMEOUT_SEC])

/- Counter-update facts. -/

theorem updateHits_noResult (pos neg : Nat) :
    updateHits Res.noResult pos neg = (pos, neg) := rfl

theorem updateHits_absent (pos neg : Nat) :
    updateHits Res.absent pos neg = (0, min NEG_STREAK (neg + 1)) := rfl

theorem updateHits_found_hit (sim : ℚ) (pos neg : Nat) (hs : SIM_THRESH ≤ sim) :
    updateHits (Res.found sim) pos neg = (min POS_STREAK (pos + 1), 0) := by
  simp [updateHits, hs]

theorem updateHits_found_miss (sim : ℚ) (pos neg : Nat)
    (hs : ¬ SIM_THRESH ≤ sim) :
    updateHits (Res.found sim) pos neg = (0, min NEG_STREAK (neg + 1)) := by
  simp [updateHits, hs]

theorem updateHits_cases (r : Res) (pos neg : Nat) :
    updateHits r pos neg = (pos, neg) ∨
    updateHits r pos neg = (0, min NEG_STREAK (neg + 1)) ∨
    updateHits r pos neg = (min POS_STREAK (pos + 1), 0) := by
  cases r with
  | noResult => exact Or.inl rfl
  | absent => exact Or.inr (Or.inl rfl)
  | found sim =>
    by_cases hs : SIM_THRESH ≤ sim
    · exact Or.inr (Or.inr (updateHits_found_hit sim pos neg hs))
    · exact Or.inr (Or.inl (updateHits_found_miss sim pos neg hs))

/-- C9: the streak counters always stay between 0 and their caps and are
never both positive: this holds initially, is preserved by every cycle,
and therefore holds in every reachable state of the main loop. -/
theorem counters_invariant :
    (∀ t0 : ℚ, CounterInv (initState t0)) ∧
    (∀ s c, CounterInv s → CounterInv (cycleStep s c).1) ∧
    (∀ (t0 : ℚ) cs, CounterInv (runFrom (initState t0) cs)) := by
  have hP : POS_STREAK = 2 := rfl
  have hN : NEG_STREAK = 6 := rfl
  have h1 : ∀ t0 : ℚ, CounterInv (initState t0) := by
    intro t0
    exact ⟨Nat.zero_le _, Nat.zero_le _, Nat.zero_le _, Nat.zero_le _, Or.inl rfl⟩
  have h2 : ∀ s c, CounterInv s → CounterInv (cycleStep s c).1 := by
    intro s c h
    obtain ⟨-, hp, -, hn, hz⟩ := h
    unfold CounterInv
    rw [cycleStep_posHits, cycleStep_negHits]
    rcases updateHits_cases c.res s.posHits s.negHits with hu | hu | hu
    · rw [hu]
      rcases hz with hz | hz
      · exact ⟨Nat.zero_le _, hp, Nat.zero_le _, hn, Or.inl hz⟩
      · exact ⟨Nat.zero_le _, hp, Nat.zero_le _, hn, Or.inr hz⟩
    · rw [hu]
      refine ⟨Nat.zero_le _, by omega, Nat.zero_le _, by omega, Or.inl rfl⟩
    · rw [hu]
      refine ⟨Nat.zero_le _, by omega, Nat.zero_le _, by omega, Or.inr rfl⟩
  have h3 : ∀ (cs : List CycleIn) (s : MState),
      CounterInv s → CounterInv (runFrom s cs) := by
    intro cs
    induction cs with
    | nil => exact fun s h => h
    | cons c cs ih => exact fun s h => ih (cycleStep s c).1 (h2 s c h)
  exact ⟨h1, h2, fun t0 cs => h3 cs (initState t0) (h1 t0)⟩

/-- C9 witness: the invariant holds at the initial state and is preserved
through a concrete miss cycle. -/
theorem counters_invariant_witness :
    CounterInv (cycleStep (initState 0) ⟨Res.absent, 0⟩).1 :=
  counters_invariant.2.1 (initState 0) ⟨Res.absent, 0⟩
    (counters_invariant.1 0)

/- The no-pending-transition invariant holds in every reachable state. -/

theorem noPending_init (t0 : ℚ) : NoPending (initState t0) := by
  constructor
  · intro _
    show 0 < POS_STREAK
    decide
  · intro h
    cases h

theorem noPending_step (s : MState) (c : CycleIn) (h : NoPending s) :
    NoPending (cycleStep s c).1 := by
  obtain ⟨hpos, hneg⟩ := h
  have hP : POS_STREAK = 2 := rfl
  have hN : NEG_STREAK = 6 := rfl
  unfold NoPending
  rw [cycleStep_posHits, cycleStep_negHits, cycleStep_present]
  rcases updateHits_cases c.res s.posHits s.negHits with hu | hu | hu
  all_goals simp only [hu]
  all_goals cases hb : s.present
  -- update kept the counters
  · have hiff := transitions_present_of_absent s s.posHits s.negHits c.now hb
    have hlt := hpos hb
    constructor
    · intro _
      exact hlt
    · intro htr
      have := hiff.mp htr
      omega
  · have hiff := transitions_absent_of_present s s.posHits s.negHits c.now hb
    have hlt := hneg hb
    constructor
    · intro htr
      have := hiff.mp htr
      omega
    · intro _
      exact hlt
  -- miss outcome: posHits reset to 0
  · have hiff := transitions_present_of_absent s 0 (min NEG_STREAK (s.negHits + 1)) c.now hb
    constructor
    · intro _
      omega
    · intro htr
      have := hiff.mp htr
      omega
  · have hiff := transitions_absent_of_present s 0 (min NEG_STREAK (s.negHits + 1)) c.now hb
    constructor
    · intro _
      omega
    · intro htr
      have hne : ¬ NEG_STREAK ≤ min NEG_STREAK (s.negHits + 1) := by
        intro hge
        rw [hiff.mpr hge] at htr
        cases htr
      omega
  -- match outcome: negHits reset to 0
  · have hiff := transitions_present_of_absent s (min POS_STREAK (s.posHits + 1)) 0 c.now hb
    constructor
    · intro htr
      have hne : ¬ POS_STREAK ≤ min POS_STREAK (s.posHits + 1) := by
        intro hge
        rw [hiff.mpr hge] at htr
        cases htr
      omega
    · intro _
      omega
  · have hiff := transitions_absent_of_present s (min POS_STREAK (s.posHits + 1)) 0 c.now hb
    constructor
    · intro htr
      have := hiff.mp htr
      omega
    · intro _
      omega

theorem noPending_run (t0 : ℚ) (cs : List CycleIn) :
    NoPending (runFrom (initState t0) cs) := by
  have key : ∀ (ds : List CycleIn) (s : MState),
      NoPending s → NoPending (runFrom s ds) := by
    intro ds
    induction ds with
    | nil => exact fun s h => h
    | cons c cs ih => exact fun s h => ih (cycleStep s c).1 (noPending_step s c h)
  exact key cs (initState t0) (noPending_init t0)

/-- C7: a cycle in which the worker produced no new result leaves the
presence state and both streak counters of the reachable loop state
unchanged (only the time-based re-arm check can still act). -/
theorem no_result_keeps_state (t0 : ℚ) (cs : List CycleIn) (c : CycleIn)
    (h : c.res = Res.noResult) :
    (cycleStep (runFrom (initState t0) cs) c).1.present
        = (runFrom (initState t0) cs).present ∧
    (cycleStep (runFrom (initState t0) cs) c).1.posHits
        = (runFrom (initState t0) cs).posHits ∧
    (cycleStep (runFrom (initState t0) cs) c).1.negHits
        = (runFrom (initState t0) cs).negHits := by
  set s := runFrom (initState t0) cs with hs
  have hnp : NoPending s := by
    rw [hs]
    exact noPending_run t0 cs
  have hu : updateHits c.res s.posHits s.negHits = (s.posHits, s.negHits) := by
    rw [h]
    exact updateHits_noResult _ _
  refine ⟨?_, ?_, ?_⟩
  · rw [cycleStep_present]
    simp only [hu]
    cases hb : s.present with
    | false =>
      have hiff := transitions_present_of_absent s s.posHits s.negHits c.now hb
      have hlt := hnp.1 hb
      cases hv : (transitions s s.posHits s.negHits c.now).1.present with
      | true =>
        have := hiff.mp hv
        omega
      | false => rfl
    | true =>
      have hiff := transitions_absent_of_present s s.posHits s.negHits c.now hb
      have hlt := hnp.2 hb
      cases hv : (transitions s s.posHits s.negHits c.now).1.present with
      | false =>
        have := hiff.mp hv
        omega
      | true => rfl
  · rw [cycleStep_posHits, hu]
  · rw [cycleStep_negHits, hu]

/-- C7 witness: a concrete no-result cycle on the initial state keeps its
presence and counters. -/
theorem no_result_keeps_state_witness :
    (cycleStep (runFrom (initState 0) []) ⟨Res.noResult, 5⟩).1.present
        = (runFrom (initState 0) []).present ∧
    (cycleStep (runFrom (initState 0) []) ⟨Res.noResult, 5⟩).1.posHits
        = (runFrom (initState 0) []).posHits ∧
    (cycleStep (runFrom (initState 0) []) ⟨Res.noResult, 5⟩).1.negHits
        = (runFrom (initState 0) []).negHits :=
  no_result_keeps_state 0 [] ⟨Res.noResult, 5⟩ rfl

/- Trailing-outcome counting. -/

theorem trailing_append_same (b : Bool) (l : List Bool) :
    trailing b (l ++ [b]) = trailing b l + 1 := by
  simp [trailing, List.takeWhile_cons]

theorem trailing_append_ne (b x : Bool) (l : List Bool) (h : (x == b) = false) :
    trailing b (l ++ [x]) = 0 := by
  simp [trailing, List.takeWhile_cons, h]

theorem outcomes_append_one (cs : List CycleIn) (c : CycleIn) :
    outcomes (cs ++ [c]) = outcomes cs ++ (outcomeOf c.res).toList := by
  simp only [outcomes, List.filterMap_append]
  cases h : outcomeOf c.res with
  | none => simp [List.filterMap_cons, h]
  | some b => simp [List.filterMap_cons, h]

theorem min_cap (k t : Nat) : min k (min k t + 1) = min k (t + 1) := by
  omega

/- The counters of a reachable state count the trailing Matches and the
trailing Misses of the outcome stream, capped at the streak sizes. -/
theorem hits_repr (t0 : ℚ) (cs : List CycleIn) :
    (runFrom (initState t0) cs).posHits
        = min POS_STREAK (trailing true (outcomes cs)) ∧
    (runFrom (initState t0) cs).negHits
        = min NEG_STREAK (trailing false (outcomes cs)) := by
  induction cs using List.reverseRecOn with
  | nil =>
    constructor
    · show (0 : Nat) = min POS_STREAK (trailing true (outcomes []))
      simp [trailing, outcomes]
    · show (0 : Nat) = min NEG_STREAK (trailing false (outcomes []))
      simp [trailing, outcomes]
  | append_singleton cs c ih =>
    obtain ⟨ih1, ih2⟩ := ih
    rw [runFrom_append_one, cycleStep_posHits, cycleStep_negHits,
      outcomes_append_one]
    cases hc : c.res with
    | noResult =>
      rw [updateHits_noResult]
      simpa [outcomeOf] using ⟨ih1, ih2⟩
    | absent =>
      rw [updateHits_absent]
      constructor
      · rw [show outcomeOf Res.absent = some false from rfl]
        simp only [Option.toList_some]
        rw [trailing_append_ne true false (outcomes cs) (by rfl)]
        simp
      · rw [show outcomeOf Res.absent = some false from rfl]
        simp only [Option.toList_some]
        rw [trailing_append_same false (outcomes cs), ih2, min_cap]
    | found sim =>
      by_cases hs : SIM_THRESH ≤ sim
      · rw [updateHits_found_hit sim _ _ hs]
        have ho : outcomeOf (Res.found sim) = some true := by
          simp [outcomeOf, hs]
        rw [ho]
        simp only [Option.toList_some]
        constructor
        · rw [trailing_append_same true (outcomes cs), ih1, min_cap]
        · rw [trailing_append_ne false true (outcomes cs) (by rfl)]
          simp
      · rw [updateHits_found_miss sim _ _ hs]
        have ho : outcomeOf (Res.found sim) = some false := by
          simp [outcomeOf, hs]
        rw [ho]
        simp only [Option.toList_some]
        constructor
        · rw [trailing_append_ne true false (outcomes cs) (by rfl)]
          simp
        · rw [trailing_append_same false (outcomes cs), ih2, min_cap]

/-- C2: the presence state never flips Absent to Present on fewer than
POS_STREAK trailing consecutive Match outcomes, never Present to Absent
on fewer than NEG_STREAK trailing consecutive Miss outcomes (cycles
without a new detector result never count and never reset), and each
transition happens exactly on a cycle whose updated streak counter
reaches its threshold while in the opposite state. -/
theorem streak_transitions (t0 : ℚ) (cs : List CycleIn) (c : CycleIn) :
    ((runFrom (initState t0) cs).present = false →
      (cycleStep (runFrom (initState t0) cs) c).1.present = true →
      POS_STREAK ≤ trailing true (outcomes (cs ++ [c]))) ∧
    ((runFrom (initState t0) cs).present = true →
      (cycleStep (runFrom (initState t0) cs) c).1.present = false →
      NEG_STREAK ≤ trailing false (outcomes (cs ++ [c]))) ∧
    ((runFrom (initState t0) cs).present = false →
      ((cycleStep (runFrom (initState t0) cs) c).1.present = true ↔
        POS_STREAK ≤ (updateHits c.res (runFrom (initState t0) cs).posHits
          (runFrom (initState t0) cs).negHits).1)) ∧
    ((runFrom (initState t0) cs).present = true →
      ((cycleStep (runFrom (initState t0) cs) c).1.present = false ↔
        NEG_STREAK ≤ (updateHits c.res (runFrom (initState t0) cs).posHits
          (runFrom (initState t0) cs).negHits).2)) := by
  set s := runFrom (initState t0) cs with hs
  have e : runFrom (initState t0) (cs ++ [c]) = (cycleStep s c).1 := by
    rw [hs]
    exact runFrom_append_one _ _ _
  have h3 : s.present = false →
      ((cycleStep s c).1.present = true ↔
        POS_STREAK ≤ (updateHits c.res s.posHits s.negHits).1) := by
    intro hb
    rw [cycleStep_present]
    exact transitions_present_of_absent s _ _ c.now hb
  have h4 : s.present = true →
      ((cycleStep s c).1.present = false ↔
        NEG_STREAK ≤ (updateHits c.res s.posHits s.negHits).2) := by
    intro hb
    rw [cycleStep_present]
    exact transitions_absent_of_present s _ _ c.now hb
  refine ⟨?_, ?_, h3, h4⟩
  · intro hb htr
    have hge := (h3 hb).mp htr
    have hmin : (cycleStep s c).1.posHits
        = min POS_STREAK (trailing true (outcomes (cs ++ [c]))) := by
      rw [← e]
      exact (hits_repr t0 (cs ++ [c])).1
    have hu := cycleStep_posHits s c
    omega
  · intro hb htr
    have hge := (h4 hb).mp htr
    have hmin : (cycleStep s c).1.negHits
        = min NEG_STREAK (trailing false (outcomes (cs ++ [c]))) := by
      rw [← e]
      exact (hits_repr t0 (cs ++ [c])).2
    have hu := cycleStep_negHits s c
    omega

/-- C2 witness: starting Absent, a second consecutive Match flips to
Present on exactly that cycle, with two trailing Matches recorded. -/
theorem streak_transitions_witness :
    POS_STREAK ≤
      trailing true (outcomes ([⟨Res.found 1, 0⟩] ++ [⟨Res.found 1, 1⟩])) ∧
    ((cycleStep (runFrom (initState 0) [⟨Res.found 1, 0⟩])
        ⟨Res.found 1, 1⟩).1.present = true ↔
      POS_STREAK ≤ (updateHits (Res.found 1)
        (runFrom (initState 0) [⟨Res.found 1, 0⟩]).posHits
        (runFrom (initState 0) [⟨Res.found 1, 0⟩]).negHits).1) :=
  ⟨(streak_transitions 0 [⟨Res.found 1, 0⟩] ⟨Res.found 1, 1⟩).1
      (by norm_num [runFrom, cycleStep, transitions, rearm, updateHits,
        initState, SIM_THRESH, POS_STREAK, NEG_STREAK, ABSENT_TIMEOUT_SEC])
      (by norm_num [runFrom, cycleStep, transitions, rearm, updateHits,
        initState, SIM_THRESH, POS_STREAK, NEG_STREAK, ABSENT_TIMEOUT_SEC]),
   (streak_transitions 0 [⟨Res.found 1, 0⟩] ⟨Res.found 1, 1⟩).2.2.1
      (by norm_num [runFrom, cycleStep, transitions, rearm, updateHits,
        initState, SIM_THRESH, POS_STREAK, NEG_STREAK, ABSENT_TIMEOUT_SEC])⟩

/- Step-level facts about the dispatch flag and the absence timestamp. -/

theorem cycleStep_fst (s : MState) (c : CycleIn) :
    (cycleStep s c).1 =
      rearm (transitions s (updateHits c.res s.posHits s.negHits).1
        (updateHits c.res s.posHits s.negHits).2 c.now).1 c.now := rfl

theorem cycleStep_snd (s : MState) (c : CycleIn) :
    (cycleStep s c).2 =
      (transitions s (updateHits c.res s.posHits s.negHits).1
        (updateHits c.res s.posHits s.negHits).2 c.now).2 := rfl

theorem transitions_ready_false (s : MState) (p n : Nat) (t : ℚ)
    (h : s.dispatchReady = false) :
    (transitions s p n t).1.dispatchReady = false := by
  unfold transitions
  split_ifs <;> simp [h]

theorem rearm_ready_false_of (s : MState) (t : ℚ)
    (h : (rearm s t).dispatchReady = false) : s.dispatchReady = false := by
  unfold rearm at h
  split_ifs at h
  exact h

theorem transitions_lastAbsent_to_absent (s : MState) (p n : Nat) (t : ℚ)
    (h1 : s.present = true) (h2 : (transitions s p n t).1.present = false) :
    (transitions s p n t).1.lastAbsent = t := by
  unfold transitions at h2 ⊢
  split_ifs at h2 ⊢ with ha hb
  · rfl
  · rw [h1] at h2
    simp at h2

theorem transitions_lastAbsent_keep (s : MState) (p n : Nat) (t : ℚ)
    (h1 : s.present = false) :
    (transitions s p n t).1.lastAbsent = s.lastAbsent := by
  unfold transitions
  split_ifs with ha hb
  · rfl
  · exact absurd hb.1 (by rw [h1]; simp)
  · rfl

theorem transitions_ready_drop (s : MState) (p n : Nat) (t : ℚ)
    (h1 : s.dispatchReady = true)
    (h2 : (transitions s p n t).1.dispatchReady = false) :
    (transitions s p n t).1.present = true := by
  unfold transitions at h2 ⊢
  split_ifs at h2 ⊢
  · rfl
  · exact absurd (h1.symm.trans h2) (by simp)
  · exact absurd (h1.symm.trans h2) (by simp)

theorem step_to_absent_lastAbsent (s : MState) (c : CycleIn)
    (h1 : s.present = true) (h2 : (cycleStep s c).1.present = false) :
    (cycleStep s c).1.lastAbsent = c.now := by
  rw [cycleStep_fst] at h2 ⊢
  rw [rearm_present] at h2
  rw [rearm_lastAbsent]
  exact transitions_lastAbsent_to_absent s _ _ c.now h1 h2

theorem step_absent_keeps_lastAbsent (s : MState) (c : CycleIn)
    (h1 : s.present = false) :
    (cycleStep s c).1.lastAbsent = s.lastAbsent := by
  rw [cycleStep_fst, rearm_lastAbsent]
  exact transitions_lastAbsent_keep s _ _ c.now h1

theorem step_ready_drop (s : MState) (c : CycleIn)
    (h1 : s.dispatchReady = true)
    (h2 : (cycleStep s c).1.dispatchReady = false) :
    (cycleStep s c).1.present = true := by
  rw [cycleStep_fst] at h2 ⊢
  have hr := rearm_ready_false_of _ _ h2
  rw [rearm_present]
  exact transitions_ready_drop s _ _ c.now h1 hr

theorem step_rearmed (s : MState) (c : CycleIn)
    (h1 : s.dispatchReady = false)
    (h2 : (cycleStep s c).1.dispatchReady = true) :
    (cycleStep s c).1.present = false ∧
      ABSENT_TIMEOUT_SEC ≤ c.now - (cycleStep s c).1.lastAbsent := by
  rw [cycleStep_fst] at h2 ⊢
  have htr : (transitions s (updateHits c.res s.posHits s.negHits).1
      (updateHits c.res s.posHits s.negHits).2 c.now).1.dispatchReady = false :=
    transitions_ready_false s _ _ c.now h1
  rcases (rearm_ready_iff _ c.now).mp h2 with hl | hr
  · exact absurd (htr.symm.trans hl) (by simp)
  · rw [rearm_present, rearm_lastAbsent]
    exact hr

/- Membership in the visited-state list. -/

theorem mem_statesFrom_self (s : MState) (cs : List CycleIn) :
    s ∈ statesFrom s cs := by
  cases cs with
  | nil => exact List.mem_singleton.mpr rfl
  | cons c cs => exact List.mem_cons_self _ _

theorem statesFrom_mono (cs ds : List CycleIn) (s : MState) :
    ∀ st ∈ statesFrom s cs, st ∈ statesFrom s (cs ++ ds) := by
  induction cs generalizing s with
  | nil =>
    intro st hst
    rw [show statesFrom s [] = [s] from rfl] at hst
    rw [List.mem_singleton.mp hst]
    exact mem_statesFrom_self s ds
  | cons c cs ih =>
    intro st hst
    rw [List.cons_append]
    rw [show statesFrom s (c :: cs) = s :: statesFrom (cycleStep s c).1 cs
      from rfl] at hst
    rw [show statesFrom s (c :: (cs ++ ds))
      = s :: statesFrom (cycleStep s c).1 (cs ++ ds) from rfl]
    rcases List.mem_cons.mp hst with rfl | hst
    · exact List.mem_cons_self _ _
    · exact List.mem_cons_of_mem _ (ih (cycleStep s c).1 st hst)

/- While the final state of a run is Absent, its lastAbsent field is the
time of the most recent Present-to-Absent transition of the run (or the
starting value when the whole run stayed Absent), and the presence state
has stayed Absent ever since. -/
theorem absence_history (cs : List CycleIn) (s : MState)
    (hfin : (runFrom s cs).present = false) :
    (s.present = false ∧ (runFrom s cs).lastAbsent = s.lastAbsent ∧
      allAbsent (statesFrom s cs)) ∨
    (∃ l1 d l2, cs = l1 ++ d :: l2 ∧ (runFrom s l1).present = true ∧
      (cycleStep (runFrom s l1) d).1.present = false ∧
      (runFrom s cs).lastAbsent = d.now ∧
      allAbsent (statesFrom (cycleStep (runFrom s l1) d).1 l2)) := by
  induction cs generalizing s with
  | nil =>
    left
    refine ⟨hfin, rfl, ?_⟩
    intro st hst
    rw [List.mem_singleton.mp hst]
    exact hfin
  | cons c cs ih =>
    have hfin' : (runFrom (cycleStep s c).1 cs).present = false := hfin
    rcases ih (cycleStep s c).1 hfin' with ⟨h1, h2, h3⟩ | ⟨l1, d, l2, hsplit, hp, hq, hl, ha⟩
    · cases hb : s.present with
      | true =>
        right
        refine ⟨[], c, cs, rfl, hb, h1, ?_, h3⟩
        have hstep : (cycleStep s c).1.lastAbsent = c.now :=
          step_to_absent_lastAbsent s c hb h1
        calc (runFrom s (c :: cs)).lastAbsent
            = (runFrom (cycleStep s c).1 cs).lastAbsent := rfl
          _ = (cycleStep s c).1.lastAbsent := h2
          _ = c.now := hstep
      | false =>
        left
        refine ⟨rfl, ?_, ?_⟩
        · calc (runFrom s (c :: cs)).lastAbsent
              = (runFrom (cycleStep s c).1 cs).lastAbsent := rfl
            _ = (cycleStep s c).1.lastAbsent := h2
            _ = s.lastAbsent := step_absent_keeps_lastAbsent s c hb
        · intro st hst
          rw [show statesFrom s (c :: cs)
            = s :: statesFrom (cycleStep s c).1 cs from rfl] at hst
          rcases List.mem_cons.mp hst with rfl | hst
          · exact hb
          · exact h3 st hst
    · right
      refine ⟨c :: l1, d, l2, ?_, hp, hq, hl, ha⟩
      rw [List.cons_append, hsplit]

/- A run can only end Disarmed if it started Disarmed or visited a
Present state (the dispatch flag is cleared only by a firing
Absent-to-Present transition). -/
theorem disarmed_was_present (cs : List CycleIn) (s : MState)
    (h : (runFrom s cs).dispatchReady = false) :
    s.dispatchReady = false ∨ ∃ st ∈ statesFrom s cs, st.present = true := by
  induction cs generalizing s with
  | nil => exact Or.inl h
  | cons c cs ih =>
    rcases ih (cycleStep s c).1 h with h1 | ⟨st, hmem, hpres⟩
    · cases hb : s.dispatchReady with
      | false => exact Or.inl rfl
      | true =>
        right
        refine ⟨(cycleStep s c).1, ?_, step_ready_drop s c hb h1⟩
        rw [show statesFrom s (c :: cs)
          = s :: statesFrom (cycleStep s c).1 cs from rfl]
        exact List.mem_cons_of_mem _ (mem_statesFrom_self _ cs)
    · right
      refine ⟨st, ?_, hpres⟩
      rw [show statesFrom s (c :: cs)
        = s :: statesFrom (cycleStep s c).1 cs from rfl]
      exact List.mem_cons_of_mem _ hmem

/-- C1: the dispatch action fires at most once per Armed period.  A
firing cycle leaves the arbiter Disarmed; while Disarmed no cycle fires;
and the arbiter returns to Armed only on a cycle whose post-transition
state is Absent with at least ABSENT_TIMEOUT_SEC elapsed since
lastAbsent, where lastAbsent is the time of the most recent
Present-to-Absent transition of the run and the presence state has been
Absent continuously ever since that transition. -/
theorem dispatch_once_per_armed (t0 : ℚ) (cs : List CycleIn) (c : CycleIn) :
    ((cycleStep (runFrom (initState t0) cs) c).2 = true →
      (cycleStep (runFrom (initState t0) cs) c).1.dispatchReady = false) ∧
    ((runFrom (initState t0) cs).dispatchReady = false →
      (cycleStep (runFrom (initState t0) cs) c).2 = false) ∧
    ((runFrom (initState t0) cs).dispatchReady = false →
      (cycleStep (runFrom (initState t0) cs) c).1.dispatchReady = true →
      (cycleStep (runFrom (initState t0) cs) c).1.present = false ∧
      ABSENT_TIMEOUT_SEC ≤
        c.now - (cycleStep (runFrom (initState t0) cs) c).1.lastAbsent ∧
      ∃ l1 d l2, cs ++ [c] = l1 ++ d :: l2 ∧
        (runFrom (initState t0) l1).present = true ∧
        (cycleStep (runFrom (initState t0) l1) d).1.present = false ∧
        (cycleStep (runFrom (initState t0) cs) c).1.lastAbsent = d.now ∧
        allAbsent (statesFrom (cycleStep (runFrom (initState t0) l1) d).1 l2)) := by
  set s := runFrom (initState t0) cs with hs
  refine ⟨?_, ?_, ?_⟩
  · intro hf
    rw [cycleStep_snd] at hf
    obtain ⟨hready, hpres⟩ := transitions_fired_ready s _ _ c.now hf
    rw [cycleStep_fst]
    rw [rearm_of_present _ _ hpres]
    exact hready
  · intro hd
    rw [cycleStep_snd]
    cases hv : (transitions s (updateHits c.res s.posHits s.negHits).1
        (updateHits c.res s.posHits s.negHits).2 c.now).2 with
    | false => rfl
    | true =>
      have := ((transitions_fired_iff s _ _ c.now).mp hv).2.2
      rw [hd] at this
      cases this
  · intro hd hr
    obtain ⟨habs, htime⟩ := step_rearmed s c hd hr
    refine ⟨habs, htime, ?_⟩
    have hrun : runFrom (initState t0) (cs ++ [c]) = (cycleStep s c).1 := by
      rw [hs]
      exact runFrom_append_one _ _ _
    have hfin : (runFrom (initState t0) (cs ++ [c])).present = false := by
      rw [hrun]
      exact habs
    rcases absence_history (cs ++ [c]) (initState t0) hfin with
      ⟨-, -, hall⟩ | ⟨l1, d, l2, hsplit, hp, hq, hl, ha⟩
    · exfalso
      rcases disarmed_was_present cs (initState t0) (by rw [← hs]; exact hd) with
        hinit | ⟨st, hmem, hpres⟩
      · cases hinit
      · have : st.present = false :=
          hall st (statesFrom_mono cs [c] (initState t0) st hmem)
        rw [hpres] at this
        cases this
    · refine ⟨l1, d, l2, hsplit, hp, hq, ?_, ha⟩
      rw [← hrun]
      exact hl

/-- C1 witness: on a concrete run (two matches firing the dispatch, then
six misses dropping presence at time 7, then a quiet cycle at time 700)
the Disarmed arbiter does not fire and re-arms, with the qualifying
absence measured from the Present-to-Absent transition at time 7. -/
theorem dispatch_once_per_armed_witness :
    (cycleStep (runFrom (initState 0)
        [⟨Res.found 1, 0⟩, ⟨Res.found 1, 1⟩, ⟨Res.absent, 2⟩, ⟨Res.absent, 3⟩,
         ⟨Res.absent, 4⟩, ⟨Res.absent, 5⟩, ⟨Res.absent, 6⟩, ⟨Res.absent, 7⟩])
        ⟨Res.noResult, 700⟩).2 = false ∧
    ((cycleStep (runFrom (initState 0)
        [⟨Res.found 1, 0⟩, ⟨Res.found 1, 1⟩, ⟨Res.absent, 2⟩, ⟨Res.absent, 3⟩,
         ⟨Res.absent, 4⟩, ⟨Res.absent, 5⟩, ⟨Res.absent, 6⟩, ⟨Res.absent, 7⟩])
        ⟨Res.noResult, 700⟩).1.present = false ∧
      ABSENT_TIMEOUT_SEC ≤ (CycleIn.mk Res.noResult 700).now -
        (cycleStep (runFrom (initState 0)
          [⟨Res.found 1, 0⟩, ⟨Res.found 1, 1⟩, ⟨Res.absent, 2⟩, ⟨Res.absent, 3⟩,
           ⟨Res.absent, 4⟩, ⟨Res.absent, 5⟩, ⟨Res.absent, 6⟩, ⟨Res.absent, 7⟩])
          ⟨Res.noResult, 700⟩).1.lastAbsent ∧
      ∃ l1 d l2,
        [⟨Res.found 1, 0⟩, ⟨Res.found 1, 1⟩, ⟨Res.absent, 2⟩, ⟨Res.absent, 3⟩,
         ⟨Res.absent, 4⟩, ⟨Res.absent, 5⟩, ⟨Res.absent, 6⟩, ⟨Res.absent, 7⟩]
          ++ [⟨Res.noResult, 700⟩] = l1 ++ d :: l2 ∧
        (runFrom (initState 0) l1).present = true ∧
        (cycleStep (runFrom (initState 0) l1) d).1.present = false ∧
        (cycleStep (runFrom (initState 0)
          [⟨Res.found 1, 0⟩, ⟨Res.found 1, 1⟩, ⟨Res.absent, 2⟩, ⟨Res.absent, 3⟩,
           ⟨Res.absent, 4⟩, ⟨Res.absent, 5⟩, ⟨Res.absent, 6⟩, ⟨Res.absent, 7⟩])
          ⟨Res.noResult, 700⟩).1.lastAbsent = d.now ∧
        allAbsent (statesFrom (cycleStep (runFrom (initState 0) l1) d).1 l2)) :=
  ⟨(dispatch_once_per_armed 0
      [⟨Res.found 1, 0⟩, ⟨Res.found 1, 1⟩, ⟨Res.absent, 2⟩, ⟨Res.absent, 3⟩,
       ⟨Res.absent, 4⟩, ⟨Res.absent, 5⟩, ⟨Res.absent, 6⟩, ⟨Res.absent, 7⟩]
      ⟨Res.noResult, 700⟩).2.1
    (by norm_num [runFrom, cycleStep, transitions, rearm, updateHits, initState,
      SIM_THRESH, POS_STREAK, NEG_STREAK, ABSENT_TIMEOUT_SEC]),
   (dispatch_once_per_armed 0
      [⟨Res.found 1, 0⟩, ⟨Res.found 1, 1⟩, ⟨Res.absent, 2⟩, ⟨Res.absent, 3⟩,
       ⟨Res.absent, 4⟩, ⟨Res.absent, 5⟩, ⟨Res.absent, 6⟩, ⟨Res.absent, 7⟩]
      ⟨Res.noResult, 700⟩).2.2
    (by norm_num [runFrom, cycleStep, transitions, rearm, updateHits, initState,
      SIM_THRESH, POS_STREAK, NEG_STREAK, ABSENT_TIMEOUT_SEC])
    (by norm_num [runFrom, cycleStep, transitions, rearm, updateHits, initState,
      SIM_THRESH, POS_STREAK, NEG_STREAK, ABSENT_TIMEOUT_SEC])⟩

end PiFace
